import Mathlib

/-!
Verification of the asynchronous command-execution registry of
`asmblr_backend` (file `src/asmblr_backend/api/commands.py`).

The embedding is shallow: each Python function of the module becomes a Lean
definition over explicit state.  JSON values that flow through the request
body are modelled by `PyValue` (the constructors actually exercised by the
endpoint); Python dicts become association lists; the `subprocess.run` call
is an oracle `Engine : String → Nat → ExecOutcome` (command, timeout
seconds); exceptions are modelled with `Except String`.
`uuid.uuid4` is an external library call; following the spec it is modelled
as an oracle producing an identifier that is not already in the registry
(the freshness hypothesis on dispatch steps).
-/

/-- A JSON value as it arrives in the Flask request body (the constructors
relevant to this endpoint). -/
inductive PyValue where
  | none
  | bool (b : Bool)
  | int (n : Int)
  | str (s : String)
deriving DecidableEq

/-- Python truthiness (`if not cmd`, `if async_exec`): `None`, `False`, `0`
and the empty string are falsy. -/
def truthy : PyValue → Bool
  | .none => false
  | .bool b => b
  | .int n => n != 0
  | .str s => s != ""

/-- Python `str(value)` on the modelled JSON values. -/
def pyStr : PyValue → String
  | .none => "None"
  | .bool true => "True"
  | .bool false => "False"
  | .int n => toString n
  | .str s => s

/-- Worker for `charsReplace`: scan left to right; while `skip` is
positive the current character was already consumed by a match and is
dropped silently; at `skip = 0`, a pattern match emits the replacement and
schedules the matched characters for skipping. -/
def crAux (o : Char) (old new : List Char) : List Char → Nat → List Char
  | [], _ => []
  | c :: rest, skip =>
    match skip with
    | n + 1 => crAux o old new rest n
    | 0 =>
      if (o :: old).isPrefixOf (c :: rest) then
        new ++ crAux o old new rest old.length
      else
        c :: crAux o old new rest 0

/-- Python `str.replace` restricted to a nonempty pattern, over character
lists: every non-overlapping occurrence, scanned left to right, is replaced.
The pattern is passed as head `o` plus tail `old` so it is nonempty by
construction (the module only ever replaces brace-delimited tokens). -/
def charsReplace (s : List Char) (o : Char) (old new : List Char) :
    List Char :=
  crAux o old new s 0

/-- `cmd.replace(f'{\x7b}{key}{\x7d}', rep)` : replace every occurrence of
the token formed by `key` wrapped in braces (lines 41 and 91 of
`commands.py`). -/
def replaceTok (s : String) (key : String) (rep : String) : String :=
  String.mk (charsReplace s.data '{' (key.data ++ ['}']) rep.data)

/-- Lines 40-41 / 90-91: `for key, value in params.items(): cmd =
cmd.replace(f'..{key}..', str(value))`.  If `cmd` is not a string and the
loop body runs at least once, `cmd.replace` raises `AttributeError`; an
empty mapping leaves a non-string `cmd` untouched. -/
def substPy : PyValue → List (String × PyValue) → Except String PyValue
  | cmd, [] => .ok cmd
  | .str s, (k, v) :: rest => substPy (.str (replaceTok s k (pyStr v))) rest
  | _, _ :: _ => .error "AttributeError: object has no attribute replace"

/-- Worker for `pySplit`: accumulate the current word (reversed) and cut
at whitespace, discarding empty pieces. -/
def pySplitChars : List Char → List Char → List (List Char)
  | [], cur => if cur = [] then [] else [cur.reverse]
  | c :: rest, cur =>
    if c.isWhitespace then
      if cur = [] then pySplitChars rest []
      else cur.reverse :: pySplitChars rest []
    else
      pySplitChars rest (c :: cur)

/-- Python `str.split()` with no argument: split on runs of whitespace,
discarding empty pieces. -/
def pySplit (s : String) : List String :=
  (pySplitChars s.data []).map String.mk

/-- `cmd.split()[0] if cmd.split() else ""` (line 30). -/
def baseCmd (s : String) : String :=
  match pySplit s with
  | [] => ""
  | h :: _ => h

/-- Line 21: `ALLOWED_COMMANDS = None` (allow all commands). -/
def ALLOWED_COMMANDS : Option (List String) := Option.none

/-- Lines 24-31, `_is_command_allowed`: with a `None` whitelist every
command is allowed before `cmd` is even touched; with a real whitelist the
first whitespace-separated token must be a member (and a non-string `cmd`
raises `AttributeError` at `cmd.split()`). -/
def is_command_allowed (wl : Option (List String)) (cmd : PyValue) :
    Except String Bool :=
  match wl with
  | Option.none => .ok true
  | Option.some ws =>
    match cmd with
    | .str s => .ok (decide (baseCmd s ∈ ws))
    | _ => .error "AttributeError: object has no attribute split"

/-- The `status` field of a job record. -/
inductive Status where
  | pending
  | running
  | completed
  | timeout
  | error
deriving DecidableEq

/-- A terminal status: `completed`, `timeout` or `error`. -/
def Terminal : Status → Bool
  | .completed => true
  | .timeout => true
  | .error => true
  | _ => false

/-- One record of the `commands` dict.  Keys that a job dict may lack
(`stdout`, `stderr`, `return_code`, `error`) are `Option` fields. -/
structure Job where
  command : PyValue
  status : Status
  stdout : Option String := Option.none
  stderr : Option String := Option.none
  return_code : Option Int := Option.none
  error : Option String := Option.none
deriving DecidableEq

/-- Line 80: the record `{'command': cmd, 'status': 'pending'}`. -/
def newJob (cmd : PyValue) : Job :=
  { command := cmd, status := .pending }

/-- The module-level `commands` dict (line 17), as an association list with
unique keys maintained by assignment. -/
def Registry := List (String × Job)
deriving DecidableEq

/-- Dict lookup `commands[command_id]` / `command_id in commands`. -/
def lookupReg : Registry → String → Option Job
  | [], _ => Option.none
  | (k, j) :: t, id => if k = id then some j else lookupReg t id

/-- Dict assignment `commands[command_id] = job`: replaces the record when
the key exists, otherwise appends it. -/
def regSet : Registry → String → Job → Registry
  | [], id, j => [(id, j)]
  | (k, v) :: t, id, j =>
    if k = id then (id, j) :: t else (k, v) :: regSet t id j

/-- In-place mutation of one record (`commands[command_id]['status'] = ...`
or `commands[command_id].update(...)`); keys other than `id` are untouched,
and a missing key changes nothing (the callers raise `KeyError` separately
in that case). -/
def updateJob : Registry → String → (Job → Job) → Registry
  | [], _, _ => []
  | (k, j) :: t, id, f =>
    if k = id then (k, f j) :: updateJob t id f
    else (k, j) :: updateJob t id f

/-- Line 37: `commands[command_id]['status'] = 'running'` (given the key
exists). -/
def setStatus (r : Registry) (id : String) (st : Status) : Registry :=
  updateJob r id (fun j => { j with status := st })

/-- The result of one `subprocess.run(cmd, shell=True, capture_output=True,
text=True, timeout=t)` call: normal completion (any exit code),
`TimeoutExpired`, or some other exception with its `str(e)` form. -/
inductive ExecOutcome where
  | completed (stdout stderr : String) (rc : Int)
  | timedOut
  | raised (msg : String)
deriving DecidableEq

/-- The execution-engine oracle: outcome of running a given command string
with a given timeout budget in seconds. -/
def Engine := String → Nat → ExecOutcome

/-- `subprocess.run(cmd, ...)`: a non-string `cmd` raises `TypeError`
before any process is spawned; otherwise the oracle decides. -/
def runEngineVal (cmd : PyValue) (t : Nat) (engine : Engine) : ExecOutcome :=
  match cmd with
  | .str s => engine s t
  | _ => .raised "TypeError: expected str instance"

/-- Lines 45-50: the single `update` performed on transition into
`completed`. -/
def jobComplete (out err : String) (rc : Int) (j : Job) : Job :=
  { j with status := .completed, stdout := some out, stderr := some err,
           return_code := some rc }

/-- Line 52: the `update` performed on `TimeoutExpired`. -/
def jobTimeoutUpd (j : Job) : Job :=
  { j with status := .timeout, error := some "Command timed out" }

/-- Line 54: the `update` performed on any other exception, recording
`str(e)`. -/
def jobErrorUpd (msg : String) (j : Job) : Job :=
  { j with status := .error, error := some msg }

/-- The net effect of lines 40-54 on the job record (after the `running`
assignment of line 37): substitute, run with the long 300-second budget,
and apply the matching terminal update. -/
def finishUpdate (cmd : PyValue) (params : List (String × PyValue))
    (engine : Engine) (j : Job) : Job :=
  match substPy cmd params with
  | .error e => jobErrorUpd e j
  | .ok scmd =>
    match runEngineVal scmd 300 engine with
    | .completed out err rc => jobComplete out err rc j
    | .timedOut => jobTimeoutUpd j
    | .raised m => jobErrorUpd m j

/-- Lines 34-54, `run_command`: the worker body.  When `command_id` is in
the dict the `try` block's failures are caught by the handlers, which
update the record in place; when it is missing, line 37 raises `KeyError`,
the generic handler's own `commands[command_id].update` raises `KeyError`
again, and that exception propagates out of the worker (`.error`). -/
def run_command (r : Registry) (command_id : String) (cmd : PyValue)
    (params : List (String × PyValue)) (engine : Engine) :
    Except String Registry :=
  if (lookupReg r command_id).isSome then
    let r1 := setStatus r command_id .running
    match substPy cmd params with
    | .error e => .ok (updateJob r1 command_id (jobErrorUpd e))
    | .ok scmd =>
      match runEngineVal scmd 300 engine with
      | .completed out err rc =>
        .ok (updateJob r1 command_id (jobComplete out err rc))
      | .timedOut => .ok (updateJob r1 command_id jobTimeoutUpd)
      | .raised m => .ok (updateJob r1 command_id (jobErrorUpd m))
  else
    .error ("KeyError: " ++ command_id)

/-- The parsed request body of `POST /api/commands/execute`:
`data.get('command')`, `data.get('params', ..)` and
`data.get('async', False)` (an absent field is passed as its default). -/
structure ExecRequest where
  command : PyValue
  params : List (String × PyValue)
  asyncFlag : PyValue
deriving DecidableEq

/-- The HTTP response of the `execute` endpoint. -/
inductive ExecuteResult where
  | badRequest
  | forbidden
  | asyncAccepted (command_id : String) (st : Status)
  | syncResult (stdout stderr : String) (rc : Int)
  | syncTimeout
  | syncError (msg : String)
  | uncaughtError (msg : String)
deriving DecidableEq

/-- The HTTP status code each response is sent with (an exception escaping
the handler yields Flask's generic 500). -/
def httpCode : ExecuteResult → Nat
  | .badRequest => 400
  | .forbidden => 403
  | .asyncAccepted _ _ => 200
  | .syncResult _ _ _ => 200
  | .syncTimeout => 408
  | .syncError _ => 500
  | .uncaughtError _ => 500

/-- The state of one background worker thread: which statement of
`run_command` it is about to execute. -/
inductive WorkerPC where
  | toRunning
  | toFinish
  | done
deriving DecidableEq

/-- A spawned worker thread and the arguments it was started with
(line 82). -/
structure WorkerState where
  wid : String
  wcmd : PyValue
  wparams : List (String × PyValue)
  pc : WorkerPC
deriving DecidableEq

/-- Lines 57-103, `execute`: validation, policy check, then the async or
sync branch.  Returns the HTTP response, the registry afterwards, and the
worker thread spawned (if any).  `freshId` is the `str(uuid.uuid4())`
oracle value; `engine` is consulted only on the synchronous branch (the
async branch hands it to the worker later). -/
def execute (wl : Option (List String)) (r : Registry) (req : ExecRequest)
    (freshId : String) (engine : Engine) :
    ExecuteResult × Registry × Option WorkerState :=
  if truthy req.command = false then
    (.badRequest, r, Option.none)
  else
    match is_command_allowed wl req.command with
    | .error e => (.uncaughtError e, r, Option.none)
    | .ok false => (.forbidden, r, Option.none)
    | .ok true =>
      if truthy req.asyncFlag then
        (.asyncAccepted freshId .pending,
         regSet r freshId (newJob req.command),
         some ⟨freshId, req.command, req.params, .toRunning⟩)
      else
        match substPy req.command req.params with
        | .error e => (.syncError e, r, Option.none)
        | .ok scmd =>
          match runEngineVal scmd 60 engine with
          | .completed out err rc => (.syncResult out err rc, r, Option.none)
          | .timedOut => (.syncTimeout, r, Option.none)
          | .raised m => (.syncError m, r, Option.none)

/-- The spec's Registry `create(id, template)` operation as the source
implements it: the bare dict assignment of line 80. -/
def create (r : Registry) (id : String) (cmd : PyValue) : Registry :=
  regSet r id (newJob cmd)

/-- Lines 106-112, the `status` endpoint: point lookup, `none` meaning the
404 response. -/
def status (r : Registry) (command_id : String) : Option Job :=
  lookupReg r command_id

/-- `GET /api/commands/list` (lines 115-118): all known identifiers. -/
def list_commands (r : Registry) : List String :=
  r.map (fun kv => kv.1)

/-- Cons a spawned worker onto the pool, if one was spawned. -/
def optCons : Option WorkerState → List WorkerState → List WorkerState
  | Option.none, ws => ws
  | some w, ws => w :: ws

/-- Advance the program counter of the worker owning `wid`. -/
def updWorker : List WorkerState → String → WorkerPC → List WorkerState
  | [], _, _ => []
  | w :: t, wid, pc =>
    if w.wid = wid then { w with pc := pc } :: updWorker t wid pc
    else w :: updWorker t wid pc

/-- Whole-process state: the `commands` dict plus the live worker
threads. -/
structure GState where
  reg : Registry
  workers : List WorkerState
deriving DecidableEq

/-- Process start: empty dict, no workers. -/
def initState : GState := ⟨[], []⟩

/-- One atomic step of the system: an HTTP `execute` request being handled
to completion (its spawned worker, if any, joining the pool), a worker
executing line 37 (`status = 'running'`), or a worker executing the rest of
its body (lines 40-54) with some engine outcome.  `hfresh` models
`uuid.uuid4()` never colliding with an existing identifier. -/
inductive Step : GState → GState → Prop where
  | dispatch (s : GState) (req : ExecRequest) (fid : String) (engine : Engine)
      (hfresh : lookupReg s.reg fid = Option.none) :
      Step s ⟨(execute ALLOWED_COMMANDS s.reg req fid engine).2.1,
              optCons (execute ALLOWED_COMMANDS s.reg req fid engine).2.2
                s.workers⟩
  | wRun (s : GState) (w : WorkerState) (hw : w ∈ s.workers)
      (hpc : w.pc = .toRunning) :
      Step s ⟨setStatus s.reg w.wid .running,
              updWorker s.workers w.wid .toFinish⟩
  | wFinish (s : GState) (w : WorkerState) (engine : Engine)
      (hw : w ∈ s.workers) (hpc : w.pc = .toFinish) :
      Step s ⟨updateJob s.reg w.wid (finishUpdate w.wcmd w.wparams engine),
              updWorker s.workers w.wid .done⟩

/-- States reachable from process start. -/
def Reachable (s : GState) : Prop :=
  Relation.ReflTransGen Step initState s

/-- The status transitions the spec allows in one step: stay put, leave
`pending`, or move from `running` to a terminal status. -/
def forwardOk (a b : Status) : Bool :=
  a == b || a == .pending || (a == .running && Terminal b)

/-- The output fields are populated exactly on `completed` records. -/
def FieldsOkB (j : Job) : Bool :=
  if j.status == .completed then
    j.stdout.isSome && j.stderr.isSome && j.return_code.isSome
  else
    j.stdout == Option.none && j.stderr == Option.none &&
      j.return_code == Option.none

/-- Status of a job as dictated by the position of its worker. -/
def WorkerCompat : WorkerPC → Status → Prop
  | .toRunning, st => st = .pending
  | .toFinish, st => st = .running
  | .done, st => Terminal st = true

/-- The inductive invariant tying the registry to the worker pool: worker
identifiers are distinct keys of the registry, each job's status matches
the position of its (unique) worker, and output fields are populated
exactly on completed records. -/
structure SysInv (s : GState) : Prop where
  wid_inj : ∀ w1 ∈ s.workers, ∀ w2 ∈ s.workers, w1.wid = w2.wid → w1 = w2
  worker_job : ∀ w ∈ s.workers,
    ∃ j, lookupReg s.reg w.wid = some j ∧ WorkerCompat w.pc j.status
  job_worker : ∀ id j, lookupReg s.reg id = some j →
    ∃ w ∈ s.workers, w.wid = id
  fields_ok : ∀ id j, lookupReg s.reg id = some j → FieldsOkB j = true

/-- A parsed command template: literal segments and brace-delimited
parameter tokens.  The well-formedness conditions below restrict templates
to those whose braces all form tokens, which is the shape the spec's
substitution contract describes. -/
inductive Piece where
  | seg (s : List Char)
  | tok (k : List Char)
deriving DecidableEq

/-- Print a parsed template back to characters. -/
def render : List Piece → List Char
  | [] => []
  | .seg s :: f => s ++ render f
  | .tok k :: f => '{' :: (k ++ '}' :: render f)

/-- A literal segment contains no opening brace. -/
def segOk (s : List Char) : Bool :=
  decide ('{' ∉ s)

/-- A parameter key contains no brace at all. -/
def keyOk (k : List Char) : Bool :=
  decide ('{' ∉ k) && decide ('}' ∉ k)

/-- Every piece of the parsed template is well formed. -/
def wfForm (f : List Piece) : Bool :=
  f.all fun p =>
    match p with
    | .seg s => segOk s
    | .tok k => keyOk k

/-- First-match lookup in a key/value list. -/
def lookupVal : List (List Char × List Char) → List Char → Option (List Char)
  | [], _ => Option.none
  | (k, v) :: t, key => if k = key then some v else lookupVal t key

/-- The specification reading of substitution: one simultaneous pass in
which every token whose key is in the mapping becomes its value, and every
other piece - unmatched tokens included - is left untouched. -/
def simulSubst (f : List Piece) (ps : List (List Char × List Char)) :
    List Piece :=
  f.map fun p =>
    match p with
    | .seg s => .seg s
    | .tok k =>
      match lookupVal ps k with
      | some v => .seg v
      | Option.none => .tok k

/-- Replace every token with key `k` by the literal value `v`. -/
def substTok (f : List Piece) (k v : List Char) : List Piece :=
  f.map fun p =>
    match p with
    | .seg s => .seg s
    | .tok k' => if k' = k then .seg v else .tok k'

/-- Sequential token replacement, one mapping entry at a time. -/
def substAllTok (f : List Piece) (ps : List (List Char × List Char)) :
    List Piece :=
  ps.foldl (fun g kv => substTok g kv.1 kv.2) f

/-- The code's substitution loop at character level: sequential
`str.replace` per mapping entry, in mapping order (the character-list form
of lines 40-41 / 90-91). -/
def substFoldChars (cs : List Char) (ps : List (List Char × List Char)) :
    List Char :=
  ps.foldl (fun c kv => charsReplace c '{' (kv.1 ++ ['}']) kv.2) cs

/-- Does `tk` occur as a contiguous run inside the second list? -/
def occursIn : List Char → List Char → Bool
  | tk, [] => tk.isPrefixOf []
  | tk, c :: rest => tk.isPrefixOf (c :: rest) || occursIn tk rest

/-- Does the brace-wrapped token of `key` occur in `s`? -/
def occursTok (key s : String) : Bool :=
  occursIn ('{' :: (key.data ++ ['}'])) s.data

/-- A demo request: asynchronous `echo hi` with no parameters. -/
def reqDemo : ExecRequest :=
  ⟨.str "echo hi", [], .bool true⟩

/-- A demo engine under which every command completes at once. -/
def engineDemo : Engine :=
  fun _ _ => .completed "hi" "" 0

/-- The record the demo job holds once completed. -/
def jobDemo3 : Job :=
  { command := .str "echo hi", status := .completed, stdout := some "hi",
    stderr := some "", return_code := some 0, error := Option.none }

/-- Demo state after dispatching the async request. -/
def gsDemo1 : GState :=
  ⟨[("job-1", newJob (.str "echo hi"))],
   [⟨"job-1", .str "echo hi", [], .toRunning⟩]⟩

/-- Demo state after the worker's line 37. -/
def gsDemo2 : GState :=
  ⟨[("job-1", { newJob (.str "echo hi") with status := .running })],
   [⟨"job-1", .str "echo hi", [], .toFinish⟩]⟩

/-- Demo state after the worker's terminal update. -/
def gsDemo3 : GState :=
  ⟨[("job-1", jobDemo3)],
   [⟨"job-1", .str "echo hi", [], .done⟩]⟩

/-- An engine that reports the command string it was asked to run. -/
def probeEngine : Engine :=
  fun s _ => .completed s "" 0


/-- The spec's own substitution example, parsed. -/
def formDemo : List Piece :=
  [.seg "echo ".data, .tok "greeting".data, .seg ", ".data,
   .tok "name".data, .seg "!".data]


theorem lookup_updateJob (r : Registry) (id id' : String) (f : Job → Job) :
    lookupReg (updateJob r id f) id' =
      if id' = id then (lookupReg r id').map f else lookupReg r id' := by
  induction r with
  | nil =>
    simp only [updateJob, lookupReg, Option.map_none']
    split <;> rfl
  | cons kv t ih =>
    obtain ⟨k, j⟩ := kv
    by_cases hk : k = id
    · subst hk
      by_cases h2 : k = id'
      · subst h2
        simp [updateJob, lookupReg]
      · have h2' : ¬ id' = k := fun h => h2 h.symm
        simp [updateJob, lookupReg, h2, h2', ih]
    · by_cases h2 : k = id'
      · subst h2
        simp [updateJob, lookupReg, hk]
      · have h2' : ¬ id' = k := fun h => h2 h.symm
        simp [updateJob, lookupReg, hk, h2, h2', ih]

theorem lookup_setStatus (r : Registry) (id id' : String) (st : Status) :
    lookupReg (setStatus r id st) id' =
      if id' = id then (lookupReg r id').map (fun j => { j with status := st })
      else lookupReg r id' :=
  lookup_updateJob r id id' _

theorem lookup_regSet (r : Registry) (id id' : String) (j : Job) :
    lookupReg (regSet r id j) id' =
      if id' = id then some j else lookupReg r id' := by
  induction r with
  | nil =>
    simp only [regSet, lookupReg]
    by_cases h : id = id'
    · subst h
      simp
    · have h' : ¬ id' = id := fun hh => h hh.symm
      simp [h, h']
  | cons kv t ih =>
    obtain ⟨k, v⟩ := kv
    by_cases hk : k = id
    · subst hk
      by_cases h2 : k = id'
      · subst h2
        simp [regSet, lookupReg]
      · have h2' : ¬ id' = k := fun h => h2 h.symm
        simp [regSet, lookupReg, h2, h2']
    · by_cases h2 : k = id'
      · subst h2
        simp [regSet, lookupReg, hk]
      · have h2' : ¬ id' = k := fun h => h2 h.symm
        simp [regSet, lookupReg, hk, h2, h2', ih]

/-- The behaviours of `execute` on the shared state: either it leaves the
registry alone and spawns nothing (validation failure, policy rejection, or
the whole synchronous branch), or (async branch) it inserts the fresh
pending record and spawns the matching worker. -/
theorem execute_state_cases (wl : Option (List String)) (r : Registry)
    (req : ExecRequest) (fid : String) (engine : Engine) :
    ((execute wl r req fid engine).2.1 = r ∧
      (execute wl r req fid engine).2.2 = Option.none) ∨
    ((execute wl r req fid engine).2.1 = regSet r fid (newJob req.command) ∧
      (execute wl r req fid engine).2.2 =
        some ⟨fid, req.command, req.params, .toRunning⟩) := by
  unfold execute
  split
  · exact Or.inl ⟨rfl, rfl⟩
  · split
    · exact Or.inl ⟨rfl, rfl⟩
    · exact Or.inl ⟨rfl, rfl⟩
    · split
      · exact Or.inr ⟨rfl, rfl⟩
      · split
        · exact Or.inl ⟨rfl, rfl⟩
        · split <;> exact Or.inl ⟨rfl, rfl⟩

/-- Every terminal update of the worker lands in a terminal status. -/
theorem finishUpdate_terminal (cmd : PyValue) (params : List (String × PyValue))
    (engine : Engine) (j : Job) :
    Terminal (finishUpdate cmd params engine j).status = true := by
  unfold finishUpdate
  split
  · rfl
  · split <;> rfl

/-- The terminal update keeps the `command` field and, away from
`completed`, the absent output fields. -/
theorem finishUpdate_fields (cmd : PyValue) (params : List (String × PyValue))
    (engine : Engine) (j : Job) (h1 : j.stdout = Option.none)
    (h2 : j.stderr = Option.none) (h3 : j.return_code = Option.none) :
    FieldsOkB (finishUpdate cmd params engine j) = true := by
  unfold finishUpdate
  split
  · simp [jobErrorUpd, FieldsOkB, h1, h2, h3]
  · split
    · simp [jobComplete, FieldsOkB]
    · simp [jobTimeoutUpd, FieldsOkB, h1, h2, h3]
    · simp [jobErrorUpd, FieldsOkB, h1, h2, h3]

theorem mem_updWorker_of_mem (ws : List WorkerState) (wid : String)
    (pc : WorkerPC) (w : WorkerState) (hw : w ∈ ws) :
    (if w.wid = wid then { w with pc := pc } else w) ∈ updWorker ws wid pc := by
  induction ws with
  | nil => cases hw
  | cons a t ih =>
    rcases List.mem_cons.mp hw with h | h
    · subst h
      by_cases ha : w.wid = wid
      · rw [if_pos ha]
        simp [updWorker, ha]
      · rw [if_neg ha]
        simp [updWorker, ha]
    · unfold updWorker
      by_cases ha : a.wid = wid
      · rw [if_pos ha]
        exact List.mem_cons_of_mem _ (ih h)
      · rw [if_neg ha]
        exact List.mem_cons_of_mem _ (ih h)

theorem mem_updWorker (ws : List WorkerState) (wid : String) (pc : WorkerPC)
    (w' : WorkerState) (h : w' ∈ updWorker ws wid pc) :
    ∃ w ∈ ws, (w.wid = wid ∧ w' = { w with pc := pc }) ∨
      (¬ w.wid = wid ∧ w' = w) := by
  induction ws with
  | nil => cases h
  | cons a t ih =>
    unfold updWorker at h
    by_cases ha : a.wid = wid
    · rw [if_pos ha] at h
      rcases List.mem_cons.mp h with h1 | h1
      · exact ⟨a, List.mem_cons_self a t, Or.inl ⟨ha, h1⟩⟩
      · obtain ⟨w, hw, hcase⟩ := ih h1
        exact ⟨w, List.mem_cons_of_mem _ hw, hcase⟩
    · rw [if_neg ha] at h
      rcases List.mem_cons.mp h with h1 | h1
      · exact ⟨a, List.mem_cons_self a t, Or.inr ⟨ha, h1⟩⟩
      · obtain ⟨w, hw, hcase⟩ := ih h1
        exact ⟨w, List.mem_cons_of_mem _ hw, hcase⟩

theorem wid_inj_updWorker (ws : List WorkerState) (wid : String)
    (pc : WorkerPC)
    (h : ∀ w1 ∈ ws, ∀ w2 ∈ ws, w1.wid = w2.wid → w1 = w2) :
    ∀ w1 ∈ updWorker ws wid pc, ∀ w2 ∈ updWorker ws wid pc,
      w1.wid = w2.wid → w1 = w2 := by
  intro w1' h1 w2' h2 heq
  obtain ⟨w1, hw1, hc1⟩ := mem_updWorker ws wid pc w1' h1
  obtain ⟨w2, hw2, hc2⟩ := mem_updWorker ws wid pc w2' h2
  rcases hc1 with ⟨ha1, he1⟩ | ⟨ha1, he1⟩ <;>
    rcases hc2 with ⟨ha2, he2⟩ | ⟨ha2, he2⟩ <;>
    have hww : w1 = w2 :=
      h w1 hw1 w2 hw2 (by rw [he1, he2] at heq; exact heq)
  · rw [he1, he2, hww]
  · rw [hww] at ha1
    exact absurd ha1 ha2
  · rw [hww] at ha1
    exact absurd ha2 ha1
  · rw [he1, he2, hww]

/-- `FieldsOkB` only looks at the output fields and whether the status is
`completed`; any record away from `completed` with absent fields
satisfies it. -/
theorem fieldsOkB_not_completed (j : Job) (h1 : j.stdout = Option.none)
    (h2 : j.stderr = Option.none) (h3 : j.return_code = Option.none)
    (hs : j.status ≠ .completed) : FieldsOkB j = true := by
  simp [FieldsOkB, hs, h1, h2, h3]

/-- A record whose `FieldsOkB` holds and whose status is not `completed`
has all output fields absent. -/
theorem fieldsOkB_none_of_not_completed (j : Job) (hf : FieldsOkB j = true)
    (hs : j.status ≠ .completed) :
    j.stdout = Option.none ∧ j.stderr = Option.none ∧
      j.return_code = Option.none := by
  simp [FieldsOkB, hs] at hf
  exact ⟨hf.1.1, hf.1.2, hf.2⟩

theorem sysInv_step {s s' : GState} (inv : SysInv s) (hst : Step s s') :
    SysInv s' := by
  cases hst with
  | dispatch req fid engine hfresh =>
    rcases execute_state_cases ALLOWED_COMMANDS s.reg req fid engine with
      ⟨hr, hsp⟩ | ⟨hr, hsp⟩
    · rw [hr, hsp]
      exact ⟨inv.wid_inj, inv.worker_job, inv.job_worker, inv.fields_ok⟩
    · rw [hr, hsp]
      simp only [optCons]
      constructor
      · intro w1 h1 w2 h2 heq
        rcases List.mem_cons.mp h1 with e1 | m1 <;>
          rcases List.mem_cons.mp h2 with e2 | m2
        · rw [e1, e2]
        · exfalso
          obtain ⟨j2, hj2, _⟩ := inv.worker_job w2 m2
          have hfid : fid = w2.wid := by
            rw [e1] at heq
            exact heq
          rw [← hfid] at hj2
          rw [hfresh] at hj2
          cases hj2
        · exfalso
          obtain ⟨j1, hj1, _⟩ := inv.worker_job w1 m1
          have hfid : w1.wid = fid := by
            rw [e2] at heq
            exact heq
          rw [hfid] at hj1
          rw [hfresh] at hj1
          cases hj1
        · exact inv.wid_inj w1 m1 w2 m2 heq
      · intro w hw
        rcases List.mem_cons.mp hw with e1 | m1
        · refine ⟨newJob req.command, ?_, ?_⟩
          · rw [e1]
            rw [lookup_regSet, if_pos rfl]
          · rw [e1]
            rfl
        · obtain ⟨j, hj, hcompat⟩ := inv.worker_job w m1
          have hne : w.wid ≠ fid := by
            intro h
            rw [h, hfresh] at hj
            cases hj
          refine ⟨j, ?_, hcompat⟩
          rw [lookup_regSet, if_neg hne, hj]
      · intro id j hj
        rw [lookup_regSet] at hj
        by_cases hid : id = fid
        · exact ⟨⟨fid, req.command, req.params, .toRunning⟩,
            List.mem_cons_self _ _, hid.symm⟩
        · rw [if_neg hid] at hj
          obtain ⟨w, hw, hwid⟩ := inv.job_worker id j hj
          exact ⟨w, List.mem_cons_of_mem _ hw, hwid⟩
      · intro id j hj
        rw [lookup_regSet] at hj
        by_cases hid : id = fid
        · rw [if_pos hid] at hj
          cases hj
          rfl
        · rw [if_neg hid] at hj
          exact inv.fields_ok id j hj
  | wRun w hw hpc =>
    obtain ⟨jw, hjw, hcompat⟩ := inv.worker_job w hw
    rw [hpc] at hcompat
    constructor
    · exact wid_inj_updWorker s.workers w.wid .toFinish inv.wid_inj
    · intro w' hw'
      obtain ⟨w0, hw0, hc⟩ := mem_updWorker s.workers w.wid .toFinish w' hw'
      rcases hc with ⟨ha, he⟩ | ⟨ha, he⟩
      · have hww : w0 = w := inv.wid_inj w0 hw0 w hw ha
        rw [he, hww]
        refine ⟨{ jw with status := .running }, ?_, rfl⟩
        rw [lookup_setStatus]
        rw [if_pos rfl, hjw]
        rfl
      · obtain ⟨j0, hj0, hc0⟩ := inv.worker_job w0 hw0
        rw [he]
        refine ⟨j0, ?_, hc0⟩
        rw [lookup_setStatus, if_neg ha, hj0]
    · intro id j hj
      rw [lookup_setStatus] at hj
      by_cases hid : id = w.wid
      · subst hid
        refine ⟨{ w with pc := .toFinish }, ?_, rfl⟩
        have hmem := mem_updWorker_of_mem s.workers w.wid .toFinish w hw
        rw [if_pos rfl] at hmem
        exact hmem
      · rw [if_neg hid] at hj
        obtain ⟨w0, hw0, hwid⟩ := inv.job_worker id j hj
        have hne : w0.wid ≠ w.wid := by
          rw [hwid]
          exact hid
        have hmem := mem_updWorker_of_mem s.workers w.wid .toFinish w0 hw0
        rw [if_neg hne] at hmem
        exact ⟨w0, hmem, hwid⟩
    · intro id j hj
      rw [lookup_setStatus] at hj
      by_cases hid : id = w.wid
      · subst hid
        rw [if_pos rfl, hjw] at hj
        simp only [Option.map_some'] at hj
        injection hj with hj
        subst hj
        have hpend : jw.status ≠ .completed := by
          rw [hcompat]
          exact fun h => Status.noConfusion h
        obtain ⟨f1, f2, f3⟩ :=
          fieldsOkB_none_of_not_completed jw
            (inv.fields_ok w.wid jw hjw) hpend
        exact fieldsOkB_not_completed _ f1 f2 f3
          (fun h => Status.noConfusion h)
      · rw [if_neg hid] at hj
        exact inv.fields_ok id j hj
  | wFinish w engine hw hpc =>
    obtain ⟨jw, hjw, hcompat⟩ := inv.worker_job w hw
    rw [hpc] at hcompat
    constructor
    · exact wid_inj_updWorker s.workers w.wid .done inv.wid_inj
    · intro w' hw'
      obtain ⟨w0, hw0, hc⟩ := mem_updWorker s.workers w.wid .done w' hw'
      rcases hc with ⟨ha, he⟩ | ⟨ha, he⟩
      · have hww : w0 = w := inv.wid_inj w0 hw0 w hw ha
        rw [he, hww]
        refine ⟨finishUpdate w.wcmd w.wparams engine jw, ?_, ?_⟩
        · rw [lookup_updateJob]
          rw [if_pos rfl, hjw]
          rfl
        · exact finishUpdate_terminal w.wcmd w.wparams engine jw
      · obtain ⟨j0, hj0, hc0⟩ := inv.worker_job w0 hw0
        rw [he]
        refine ⟨j0, ?_, hc0⟩
        rw [lookup_updateJob, if_neg ha, hj0]
    · intro id j hj
      rw [lookup_updateJob] at hj
      by_cases hid : id = w.wid
      · subst hid
        refine ⟨{ w with pc := .done }, ?_, rfl⟩
        have hmem := mem_updWorker_of_mem s.workers w.wid .done w hw
        rw [if_pos rfl] at hmem
        exact hmem
      · rw [if_neg hid] at hj
        obtain ⟨w0, hw0, hwid⟩ := inv.job_worker id j hj
        have hne : w0.wid ≠ w.wid := by
          rw [hwid]
          exact hid
        have hmem := mem_updWorker_of_mem s.workers w.wid .done w0 hw0
        rw [if_neg hne] at hmem
        exact ⟨w0, hmem, hwid⟩
    · intro id j hj
      rw [lookup_updateJob] at hj
      by_cases hid : id = w.wid
      · subst hid
        rw [if_pos rfl, hjw] at hj
        simp only [Option.map_some'] at hj
        injection hj with hj
        subst hj
        have hrun : jw.status ≠ .completed := by
          rw [hcompat]
          exact fun h => Status.noConfusion h
        obtain ⟨f1, f2, f3⟩ :=
          fieldsOkB_none_of_not_completed jw
            (inv.fields_ok w.wid jw hjw) hrun
        exact finishUpdate_fields w.wcmd w.wparams engine jw f1 f2 f3
      · rw [if_neg hid] at hj
        exact inv.fields_ok id j hj

theorem sysInv_initState : SysInv initState := by
  constructor
  · intro w1 h1
    cases h1
  · intro w h1
    cases h1
  · intro id j h1
    cases h1
  · intro id j h1
    cases h1

theorem sysInv_reachable {s : GState} (h : Reachable s) : SysInv s := by
  induction h with
  | refl => exact sysInv_initState
  | tail hsteps hstep ih => exact sysInv_step ih hstep

theorem step_forward_of_inv {s s' : GState} (inv : SysInv s)
    (hst : Step s s') {id : String} {j j' : Job}
    (hj : lookupReg s.reg id = some j)
    (hj' : lookupReg s'.reg id = some j') :
    forwardOk j.status j'.status = true := by
  cases hst with
  | dispatch req fid engine hfresh =>
    rcases execute_state_cases ALLOWED_COMMANDS s.reg req fid engine with
      ⟨hr, _⟩ | ⟨hr, _⟩
    · rw [hr, hj] at hj'
      injection hj' with hj'
      rw [hj']
      simp [forwardOk]
    · rw [hr, lookup_regSet] at hj'
      by_cases hid : id = fid
      · rw [hid, hfresh] at hj
        cases hj
      · rw [if_neg hid, hj] at hj'
        injection hj' with hj'
        rw [hj']
        simp [forwardOk]
  | wRun w hw hpc =>
    obtain ⟨jw, hjw, hcompat⟩ := inv.worker_job w hw
    rw [hpc] at hcompat
    rw [lookup_setStatus] at hj'
    by_cases hid : id = w.wid
    · rw [hid, hjw] at hj
      injection hj with hj
      rw [← hj, hcompat]
      simp [forwardOk]
    · rw [if_neg hid, hj] at hj'
      injection hj' with hj'
      rw [hj']
      simp [forwardOk]
  | wFinish w engine hw hpc =>
    obtain ⟨jw, hjw, hcompat⟩ := inv.worker_job w hw
    rw [hpc] at hcompat
    rw [lookup_updateJob] at hj'
    by_cases hid : id = w.wid
    · rw [hid, hjw] at hj
      injection hj with hj
      rw [if_pos hid, hid, hjw] at hj'
      simp only [Option.map_some'] at hj'
      injection hj' with hj'
      rw [← hj', ← hj, hcompat]
      simp [forwardOk, finishUpdate_terminal]
    · rw [if_neg hid, hj] at hj'
      injection hj' with hj'
      rw [hj']
      simp [forwardOk]

theorem completed_frozen_of_inv {s s' : GState} (inv : SysInv s)
    (hst : Step s s') {id : String} {j : Job}
    (hj : lookupReg s.reg id = some j) (hc : j.status = .completed) :
    lookupReg s'.reg id = some j := by
  cases hst with
  | dispatch req fid engine hfresh =>
    rcases execute_state_cases ALLOWED_COMMANDS s.reg req fid engine with
      ⟨hr, _⟩ | ⟨hr, _⟩
    · rw [hr]
      exact hj
    · rw [hr, lookup_regSet]
      have hid : id ≠ fid := by
        intro h
        rw [h, hfresh] at hj
        cases hj
      rw [if_neg hid]
      exact hj
  | wRun w hw hpc =>
    obtain ⟨jw, hjw, hcompat⟩ := inv.worker_job w hw
    rw [hpc] at hcompat
    rw [lookup_setStatus]
    have hid : id ≠ w.wid := by
      intro h
      rw [h, hjw] at hj
      injection hj with hj
      rw [hj] at hcompat
      rw [hc] at hcompat
      exact Status.noConfusion hcompat
    rw [if_neg hid]
    exact hj
  | wFinish w engine hw hpc =>
    obtain ⟨jw, hjw, hcompat⟩ := inv.worker_job w hw
    rw [hpc] at hcompat
    rw [lookup_updateJob]
    have hid : id ≠ w.wid := by
      intro h
      rw [h, hjw] at hj
      injection hj with hj
      rw [hj] at hcompat
      rw [hc] at hcompat
      exact Status.noConfusion hcompat
    rw [if_neg hid]
    exact hj

theorem completed_frozen_steps {s t : GState} (hr : Reachable s)
    (hsteps : Relation.ReflTransGen Step s t) {id : String} {j : Job}
    (hj : lookupReg s.reg id = some j) (hc : j.status = .completed) :
    lookupReg t.reg id = some j := by
  induction hsteps with
  | refl => exact hj
  | tail h1 h2 ih =>
    exact completed_frozen_of_inv
      (sysInv_reachable (Relation.ReflTransGen.trans hr h1)) h2 ih hc

theorem step_demo01 : Step initState gsDemo1 := by
  have e : (⟨(execute ALLOWED_COMMANDS initState.reg reqDemo "job-1"
        engineDemo).2.1,
      optCons (execute ALLOWED_COMMANDS initState.reg reqDemo "job-1"
        engineDemo).2.2 initState.workers⟩ : GState) = gsDemo1 := by
    decide
  exact e ▸ Step.dispatch initState reqDemo "job-1" engineDemo rfl

theorem step_demo12 : Step gsDemo1 gsDemo2 := by
  have e : (⟨setStatus gsDemo1.reg "job-1" .running,
      updWorker gsDemo1.workers "job-1" .toFinish⟩ : GState) = gsDemo2 := by
    decide
  exact e ▸ Step.wRun gsDemo1 ⟨"job-1", .str "echo hi", [], .toRunning⟩
    (by decide) rfl

theorem step_demo23 : Step gsDemo2 gsDemo3 := by
  have e : (⟨updateJob gsDemo2.reg "job-1"
        (finishUpdate (.str "echo hi") [] engineDemo),
      updWorker gsDemo2.workers "job-1" .done⟩ : GState) = gsDemo3 := by
    decide
  exact e ▸ Step.wFinish gsDemo2 ⟨"job-1", .str "echo hi", [], .toFinish⟩
    engineDemo (by decide) rfl

theorem reach_demo1 : Reachable gsDemo1 :=
  Relation.ReflTransGen.tail Relation.ReflTransGen.refl step_demo01

theorem reach_demo2 : Reachable gsDemo2 :=
  Relation.ReflTransGen.tail reach_demo1 step_demo12

theorem reach_demo3 : Reachable gsDemo3 :=
  Relation.ReflTransGen.tail reach_demo2 step_demo23

/-- C1: along any reachable execution, a single dispatcher or worker step
can only keep a job's status, leave `pending`, or move `running` to a
terminal status (`forwardOk`); in particular no step moves a job from
`running` back to `pending`, and no step leaves a terminal status
(`completed`, `timeout`, `error`). -/
theorem status_transitions_monotone {s s' : GState} (hr : Reachable s)
    (hst : Step s s') {id : String} {j j' : Job}
    (hj : lookupReg s.reg id = some j)
    (hj' : lookupReg s'.reg id = some j') :
    forwardOk j.status j'.status = true :=
  step_forward_of_inv (sysInv_reachable hr) hst hj hj'

theorem status_transitions_monotone_witness :
    forwardOk (newJob (.str "echo hi")).status
      ({ newJob (.str "echo hi") with status := .running }).status = true :=
  @status_transitions_monotone gsDemo1 gsDemo2 reach_demo1 step_demo12
    "job-1" (newJob (.str "echo hi"))
    { newJob (.str "echo hi") with status := .running }
    (by decide) (by decide)

/-- C4: on every reachable state the stdout/stderr/return_code fields are
populated exactly on `completed` records (they are written together by the
single `completed` update and by nothing else), and once a job is
`completed` its whole record - those fields included - survives every
further step sequence unchanged, so every subsequent `status` lookup
returns the identical record. -/
theorem completed_outputs_written_once {s : GState} (hr : Reachable s) :
    (∀ id j, lookupReg s.reg id = some j → FieldsOkB j = true) ∧
    (∀ t, Relation.ReflTransGen Step s t →
      ∀ id j, lookupReg s.reg id = some j → j.status = .completed →
        status t.reg id = some j ∧ status t.reg id = status s.reg id) := by
  refine ⟨(sysInv_reachable hr).fields_ok, ?_⟩
  intro t hsteps id j hj hc
  have hfro := completed_frozen_steps hr hsteps hj hc
  constructor
  · exact hfro
  · unfold status
    rw [hfro, hj]

theorem completed_outputs_written_once_witness :
    FieldsOkB jobDemo3 = true ∧ status gsDemo3.reg "job-1" = some jobDemo3 :=
  ⟨(completed_outputs_written_once reach_demo3).1 "job-1" jobDemo3 (by decide),
   ((completed_outputs_written_once reach_demo3).2 gsDemo3
      Relation.ReflTransGen.refl "job-1" jobDemo3 (by decide) rfl).1⟩

theorem updateJob_congr (r : Registry) (id : String) (f g : Job → Job)
    (h : ∀ j, f j = g j) : updateJob r id f = updateJob r id g := by
  induction r with
  | nil => rfl
  | cons kv t ih =>
    obtain ⟨k, j⟩ := kv
    by_cases hk : k = id
    · simp [updateJob, hk, h, ih]
    · simp [updateJob, hk, ih]

/-- On a registered id the worker body amounts to: set `running`, then
apply the matching terminal update. -/
theorem run_command_eq (r : Registry) (command_id : String) (cmd : PyValue)
    (params : List (String × PyValue)) (engine : Engine)
    (h : (lookupReg r command_id).isSome = true) :
    run_command r command_id cmd params engine =
      .ok (updateJob (setStatus r command_id .running) command_id
        (finishUpdate cmd params engine)) := by
  unfold run_command
  rw [if_pos h]
  split
  next e heq =>
    exact congrArg Except.ok (updateJob_congr _ _ _ _ (fun j => by
      simp only [finishUpdate, heq]))
  next scmd heq =>
    split
    next out err rc heq2 =>
      exact congrArg Except.ok (updateJob_congr _ _ _ _ (fun j => by
        simp only [finishUpdate, heq, heq2]))
    next heq2 =>
      exact congrArg Except.ok (updateJob_congr _ _ _ _ (fun j => by
        simp only [finishUpdate, heq, heq2]))
    next m heq2 =>
      exact congrArg Except.ok (updateJob_congr _ _ _ _ (fun j => by
        simp only [finishUpdate, heq, heq2]))

/-- C2: for a registered job the worker always returns normally (`.ok`, no
exception escapes `run_command`), leaves the job in a terminal status (so
never stuck in `running`), and turns any exception - whether raised by the
parameter substitution or by the execution call, timeouts excepted - into
status `error` with the exception text recorded in the `error` field. -/
theorem worker_catches_exceptions (r : Registry) (command_id : String)
    (cmd : PyValue) (params : List (String × PyValue)) (engine : Engine)
    (hpresent : (lookupReg r command_id).isSome = true) :
    ∃ r', run_command r command_id cmd params engine = .ok r' ∧
      ∃ j, lookupReg r' command_id = some j ∧ Terminal j.status = true ∧
        (∀ e, substPy cmd params = .error e →
          j.status = .error ∧ j.error = some e) ∧
        (∀ v m, substPy cmd params = .ok v →
          runEngineVal v 300 engine = .raised m →
          j.status = .error ∧ j.error = some m) := by
  obtain ⟨j0, hj0⟩ := Option.isSome_iff_exists.mp hpresent
  refine ⟨_, run_command_eq r command_id cmd params engine hpresent,
    finishUpdate cmd params engine { j0 with status := .running },
    ?_, finishUpdate_terminal cmd params engine _, ?_, ?_⟩
  · rw [lookup_updateJob, if_pos rfl, lookup_setStatus, if_pos rfl, hj0]
    rfl
  · intro e he
    simp only [finishUpdate, he]
    exact ⟨rfl, rfl⟩
  · intro v m hv hm
    simp only [finishUpdate, hv, hm]
    exact ⟨rfl, rfl⟩

theorem worker_catches_exceptions_witness :
    ∃ r', run_command [("job-a", newJob (.int 7))] "job-a" (.int 7)
        [("k", .str "v")] engineDemo = .ok r' ∧
      ∃ j, lookupReg r' "job-a" = some j ∧ Terminal j.status = true ∧
        (∀ e, substPy (.int 7) [("k", .str "v")] = .error e →
          j.status = .error ∧ j.error = some e) ∧
        (∀ v m, substPy (.int 7) [("k", .str "v")] = .ok v →
          runEngineVal v 300 engineDemo = .raised m →
          j.status = .error ∧ j.error = some m) :=
  worker_catches_exceptions [("job-a", newJob (.int 7))] "job-a" (.int 7)
    [("k", .str "v")] engineDemo (by decide)

/-- C5: with a truthy command, `async` truthy and a fresh identifier (the
`uuid.uuid4` model), `execute` inserts a `pending` Job under that
identifier into the registry it returns, replies with exactly that
identifier and status `pending`, and its reply and registry do not depend
on the engine - it does not wait for the worker (which is handed back as a
separately scheduled `WorkerState`). -/
theorem async_dispatch_returns_pending (r : Registry) (req : ExecRequest)
    (fid : String) (engine : Engine)
    (hcmd : truthy req.command = true)
    (hasync : truthy req.asyncFlag = true)
    (hfresh : lookupReg r fid = Option.none) :
    execute ALLOWED_COMMANDS r req fid engine =
      (.asyncAccepted fid .pending, regSet r fid (newJob req.command),
       some ⟨fid, req.command, req.params, .toRunning⟩) ∧
    lookupReg r fid = Option.none ∧
    lookupReg (regSet r fid (newJob req.command)) fid =
      some (newJob req.command) ∧
    (newJob req.command).status = .pending ∧
    (∀ engine2 : Engine,
      execute ALLOWED_COMMANDS r req fid engine2 =
        execute ALLOWED_COMMANDS r req fid engine) := by
  have hexec : ∀ e : Engine, execute ALLOWED_COMMANDS r req fid e =
      (.asyncAccepted fid .pending, regSet r fid (newJob req.command),
       some ⟨fid, req.command, req.params, .toRunning⟩) := by
    intro e
    unfold execute
    rw [hcmd]
    simp only [Bool.true_eq_false, if_false]
    show (if truthy req.asyncFlag = true then _ else _) = _
    rw [hasync]
    simp only [if_true]
  refine ⟨hexec engine, hfresh, ?_, rfl,
    fun e2 => by rw [hexec e2, hexec engine]⟩
  rw [lookup_regSet, if_pos rfl]

theorem async_dispatch_returns_pending_witness :
    execute ALLOWED_COMMANDS [] reqDemo "job-1" engineDemo =
      (.asyncAccepted "job-1" .pending,
       regSet [] "job-1" (newJob reqDemo.command),
       some ⟨"job-1", reqDemo.command, reqDemo.params, .toRunning⟩) ∧
    lookupReg [] "job-1" = Option.none ∧
    lookupReg (regSet [] "job-1" (newJob reqDemo.command)) "job-1" =
      some (newJob reqDemo.command) ∧
    (newJob reqDemo.command).status = .pending ∧
    (∀ engine2 : Engine,
      execute ALLOWED_COMMANDS [] reqDemo "job-1" engine2 =
        execute ALLOWED_COMMANDS [] reqDemo "job-1" engineDemo) :=
  async_dispatch_returns_pending [] reqDemo "job-1" engineDemo
    (by decide) (by decide) (by decide)

/-- C6: a submission handled with a falsy `async` flag returns the
registry exactly as it was and spawns no worker, whatever the validation,
policy, substitution or engine outcome - no Job record is created, updated
or removed. -/
theorem sync_leaves_registry_unchanged (wl : Option (List String))
    (r : Registry) (req : ExecRequest) (fid : String) (engine : Engine)
    (hsync : truthy req.asyncFlag = false) :
    (execute wl r req fid engine).2.1 = r ∧
    (execute wl r req fid engine).2.2 = Option.none := by
  unfold execute
  split
  · exact ⟨rfl, rfl⟩
  · split
    · exact ⟨rfl, rfl⟩
    · exact ⟨rfl, rfl⟩
    · rw [hsync]
      simp only [Bool.false_eq_true, if_false]
      split
      · exact ⟨rfl, rfl⟩
      · split <;> exact ⟨rfl, rfl⟩

theorem sync_leaves_registry_unchanged_witness :
    (execute ALLOWED_COMMANDS gsDemo1.reg ⟨.str "echo ok", [], .bool false⟩
      "job-9" engineDemo).2.1 = gsDemo1.reg ∧
    (execute ALLOWED_COMMANDS gsDemo1.reg ⟨.str "echo ok", [], .bool false⟩
      "job-9" engineDemo).2.2 = Option.none :=
  sync_leaves_registry_unchanged ALLOWED_COMMANDS gsDemo1.reg
    ⟨.str "echo ok", [], .bool false⟩ "job-9" engineDemo (by decide)

/-- C7: timeouts are surfaced distinctly.  Async: starting from the
dispatch-created record, the worker first exposes status `running`, and
when the engine times out under the long 300-second budget the final
record has status `timeout` (not `completed`), the fixed message in
`error`, and all of stdout/stderr/return_code still absent.  Sync: when
the engine times out under the short 60-second budget the response is the
distinguished `syncTimeout` (HTTP 408), not the generic `syncError`
(HTTP 500). -/
theorem timeout_distinguished :
    (∀ (r : Registry) (command_id : String) (cmdv v : PyValue)
        (params : List (String × PyValue)) (engine : Engine),
      lookupReg r command_id = some (newJob cmdv) →
      substPy cmdv params = .ok v →
      runEngineVal v 300 engine = .timedOut →
      lookupReg (setStatus r command_id .running) command_id =
        some { newJob cmdv with status := .running } ∧
      ∃ r', run_command r command_id cmdv params engine = .ok r' ∧
        lookupReg r' command_id =
          some { command := cmdv, status := .timeout,
                 stdout := Option.none, stderr := Option.none,
                 return_code := Option.none,
                 error := some "Command timed out" } ∧
        Status.timeout ≠ Status.completed) ∧
    (∀ (wl : Option (List String)) (r : Registry) (req : ExecRequest)
        (fid : String) (engine : Engine) (v : PyValue),
      truthy req.command = true →
      is_command_allowed wl req.command = .ok true →
      truthy req.asyncFlag = false →
      substPy req.command req.params = .ok v →
      runEngineVal v 60 engine = .timedOut →
      (execute wl r req fid engine).1 = .syncTimeout ∧
      httpCode .syncTimeout = 408 ∧
      (∀ m, httpCode (.syncError m) = 500)) := by
  constructor
  · intro r command_id cmdv v params engine hj hS hE
    constructor
    · rw [lookup_setStatus, if_pos rfl, hj]
      rfl
    · have hpresent : (lookupReg r command_id).isSome = true := by
        rw [hj]
        rfl
      refine ⟨_, run_command_eq r command_id cmdv params engine hpresent,
        ?_, fun h => Status.noConfusion h⟩
      rw [lookup_updateJob, if_pos rfl, lookup_setStatus, if_pos rfl, hj]
      simp only [Option.map_some']
      simp only [finishUpdate, hS, hE]
      rfl
  · intro wl r req fid engine v h1 hA h3 hS hE
    refine ⟨?_, rfl, fun m => rfl⟩
    unfold execute
    rw [h1]
    simp only [Bool.true_eq_false, if_false]
    rw [hA]
    show (if truthy req.asyncFlag = true
        then (_ : ExecuteResult × Registry × Option WorkerState)
        else _).1 = _
    rw [h3]
    simp only [Bool.false_eq_true, if_false]
    rw [hS]
    show (match runEngineVal v 60 engine with
      | ExecOutcome.completed out err rc =>
        (ExecuteResult.syncResult out err rc, r, Option.none)
      | ExecOutcome.timedOut => (ExecuteResult.syncTimeout, r, Option.none)
      | ExecOutcome.raised m =>
        (ExecuteResult.syncError m, r, Option.none)).1 = _
    rw [hE]

theorem timeout_distinguished_witness :
    (lookupReg (setStatus [("job-t", newJob (.str "sleep 999"))] "job-t"
        .running) "job-t" =
      some { newJob (.str "sleep 999") with status := .running } ∧
     ∃ r', run_command [("job-t", newJob (.str "sleep 999"))] "job-t"
        (.str "sleep 999") [] (fun _ _ => .timedOut) = .ok r' ∧
       lookupReg r' "job-t" =
         some { command := .str "sleep 999", status := .timeout,
                stdout := Option.none, stderr := Option.none,
                return_code := Option.none,
                error := some "Command timed out" } ∧
       Status.timeout ≠ Status.completed) ∧
    ((execute ALLOWED_COMMANDS [] ⟨.str "sleep 999", [], .bool false⟩
        "job-t" (fun _ _ => .timedOut)).1 = .syncTimeout ∧
     httpCode .syncTimeout = 408 ∧
     (∀ m, httpCode (.syncError m) = 500)) :=
  ⟨timeout_distinguished.1 [("job-t", newJob (.str "sleep 999"))] "job-t"
      (.str "sleep 999") (.str "sleep 999") [] (fun _ _ => .timedOut)
      (by decide) rfl rfl,
   timeout_distinguished.2 ALLOWED_COMMANDS []
      ⟨.str "sleep 999", [], .bool false⟩ "job-t" (fun _ _ => .timedOut)
      (.str "sleep 999") (by decide) rfl rfl rfl rfl⟩

/-- The dispatcher replies 400 exactly on falsy commands. -/
theorem execute_badRequest_iff (wl : Option (List String)) (r : Registry)
    (req : ExecRequest) (fid : String) (engine : Engine) :
    ((execute wl r req fid engine).1 = .badRequest) ↔
      truthy req.command = false := by
  unfold execute
  split
  next h => simp [h]
  next h =>
    split
    · simp [h]
    · simp [h]
    · split
      · simp [h]
      · split
        · simp [h]
        · split <;> simp [h]

/-- C8 counterexample: the submission whose command is the JSON number 42 -
not a non-empty string - is not rejected with 400; the code tests Python
truthiness, and `42` is truthy, so the request proceeds to execution. -/
theorem validation_nonstring_counterexample :
    (execute ALLOWED_COMMANDS [] ⟨.int 42, [], .bool false⟩ "job-x"
        engineDemo).1 ≠ .badRequest ∧
    httpCode (execute ALLOWED_COMMANDS [] ⟨.int 42, [], .bool false⟩ "job-x"
        engineDemo).1 ≠ 400 := by
  decide

/-- C8 (amended): every submission whose command is falsy (absent/None,
empty string, 0, false) is rejected with 400 before any substitution,
execution or registry change; submissions with a truthy command - every
non-empty string, but also truthy non-strings - are never rejected with
400 (non-string ones fail later, at substitution or execution). -/
theorem validation_checks_truthiness :
    (∀ (wl : Option (List String)) (r : Registry) (req : ExecRequest)
        (fid : String) (engine : Engine),
      truthy req.command = false →
      execute wl r req fid engine = (.badRequest, r, Option.none) ∧
      httpCode .badRequest = 400) ∧
    (∀ (wl : Option (List String)) (r : Registry) (req : ExecRequest)
        (fid : String) (engine : Engine) (cs : String),
      req.command = .str cs → cs ≠ "" →
      (execute wl r req fid engine).1 ≠ .badRequest) := by
  constructor
  · intro wl r req fid engine h
    refine ⟨?_, rfl⟩
    unfold execute
    rw [h]
    simp
  · intro wl r req fid engine cs hcs hne
    rw [Ne, execute_badRequest_iff]
    rw [hcs]
    simp [truthy, hne]

theorem validation_checks_truthiness_witness :
    (execute ALLOWED_COMMANDS [] ⟨.str "", [], .bool false⟩ "job-x"
        engineDemo = (.badRequest, [], Option.none) ∧
      httpCode .badRequest = 400) ∧
    (execute ALLOWED_COMMANDS [] ⟨.str "echo ok", [], .bool false⟩ "job-x"
        engineDemo).1 ≠ .badRequest :=
  ⟨validation_checks_truthiness.1 ALLOWED_COMMANDS []
      ⟨.str "", [], .bool false⟩ "job-x" engineDemo (by decide),
   validation_checks_truthiness.2 ALLOWED_COMMANDS []
      ⟨.str "echo ok", [], .bool false⟩ "job-x" engineDemo "echo ok" rfl
      (by decide)⟩

/-- C9 counterexample: `create` over an existing identifier silently
replaces the old record with a fresh `pending` one - it does not fail, and
the old record is gone. -/
theorem create_silent_replace_counterexample :
    lookupReg (create (create [] "job-c" (.str "echo one")) "job-c"
        (.str "echo two")) "job-c" = some (newJob (.str "echo two")) ∧
    newJob (.str "echo two") ≠ newJob (.str "echo one") ∧
    create (create [] "job-c" (.str "echo one")) "job-c" (.str "echo two") =
      [("job-c", newJob (.str "echo two"))] := by
  decide

/-- C9 (amended): `create(id, template)` is an unconditional dict
assignment: afterwards `id` maps to the fresh `pending` Job - replacing
any record that was already there rather than failing - and every other
identifier is untouched. -/
theorem create_inserts_pending (r : Registry) (id id' : String)
    (cmd : PyValue) (h : id' ≠ id) :
    lookupReg (create r id cmd) id = some (newJob cmd) ∧
    (newJob cmd).status = .pending ∧
    lookupReg (create r id cmd) id' = lookupReg r id' := by
  refine ⟨?_, rfl, ?_⟩
  · unfold create
    rw [lookup_regSet, if_pos rfl]
  · unfold create
    rw [lookup_regSet, if_neg h]

theorem create_inserts_pending_witness :
    lookupReg (create [] "job-c" (.str "echo one")) "job-c" =
      some (newJob (.str "echo one")) ∧
    (newJob (.str "echo one")).status = .pending ∧
    lookupReg (create [] "job-c" (.str "echo one")) "job-d" =
      lookupReg [] "job-d" :=
  create_inserts_pending [] "job-c" "job-d" (.str "echo one") (by decide)

/-- C10: the allow-list check is applied once, to the raw unsubstituted
template, before dispatch: whenever the raw template fails the policy the
request stops at 403 with nothing executed, independent of `params`; and
the fully substituted command is never re-checked - witness a whitelist
and template where the raw template passes the policy, the substituted
command `rm -rf /` fails it, yet exactly that substituted string reaches
the engine. -/
theorem allowlist_checks_raw_template_only :
    (∀ (wl : Option (List String)) (r : Registry) (req : ExecRequest)
        (fid : String) (engine : Engine),
      truthy req.command = true →
      is_command_allowed wl req.command = .ok false →
      execute wl r req fid engine = (.forbidden, r, Option.none)) ∧
    (is_command_allowed (some ["{c}"]) (.str "{c}") = .ok true ∧
     substPy (.str "{c}") [("c", .str "rm -rf /")] = .ok (.str "rm -rf /") ∧
     is_command_allowed (some ["{c}"]) (.str "rm -rf /") = .ok false ∧
     (execute (some ["{c}"]) []
        ⟨.str "{c}", [("c", .str "rm -rf /")], .bool false⟩
        "job-w" probeEngine).1 = .syncResult "rm -rf /" "" 0) := by
  constructor
  · intro wl r req fid engine h1 hA
    unfold execute
    rw [h1]
    simp only [Bool.true_eq_false, if_false]
    rw [hA]
  · exact ⟨rfl, rfl, rfl, rfl⟩

theorem allowlist_checks_raw_template_only_witness :
    execute (some ["ls"]) [] ⟨.str "rm x", [], .bool false⟩ "job-w"
      engineDemo = (.forbidden, [], Option.none) :=
  allowlist_checks_raw_template_only.1 (some ["ls"]) []
    ⟨.str "rm x", [], .bool false⟩ "job-w" engineDemo (by decide) rfl

theorem crAux_skip (o : Char) (old new : List Char) :
    ∀ (s : List Char) (n : Nat),
      crAux o old new s n = crAux o old new (s.drop n) 0 := by
  intro s
  induction s with
  | nil =>
    intro n
    simp [crAux]
  | cons c rest ih =>
    intro n
    cases n with
    | zero => rfl
    | succ m =>
      show crAux o old new rest m = _
      rw [List.drop_succ_cons]
      exact ih m

theorem charsReplace_cons_pos (c : Char) (rest : List Char) (o : Char)
    (old new : List Char) (h : (o :: old).isPrefixOf (c :: rest) = true) :
    charsReplace (c :: rest) o old new =
      new ++ charsReplace (rest.drop old.length) o old new := by
  show (if (o :: old).isPrefixOf (c :: rest) then
      new ++ crAux o old new rest old.length
    else c :: crAux o old new rest 0) = _
  rw [if_pos h, crAux_skip]
  rfl

theorem charsReplace_cons_neg (c : Char) (rest : List Char) (o : Char)
    (old new : List Char) (h : ¬ (o :: old).isPrefixOf (c :: rest) = true) :
    charsReplace (c :: rest) o old new = c :: charsReplace rest o old new := by
  show (if (o :: old).isPrefixOf (c :: rest) then
      new ++ crAux o old new rest old.length
    else c :: crAux o old new rest 0) = _
  rw [if_neg h]
  rfl

/-- The scanner copies any pattern-head-free prefix verbatim. -/
theorem charsReplace_append_no_open (p : List Char) (s new tl : List Char)
    (hp : '{' ∉ p) :
    charsReplace (p ++ s) '{' tl new = p ++ charsReplace s '{' tl new := by
  induction p with
  | nil => rfl
  | cons c q ih =>
    have hc : c ≠ '{' := fun h => hp (by rw [h]; exact List.mem_cons_self _ _)
    have hq : '{' ∉ q := fun h => hp (List.mem_cons_of_mem _ h)
    have hpre : ¬ ('{' :: tl).isPrefixOf (c :: (q ++ s)) = true := by
      show ¬ (('{' == c) && tl.isPrefixOf (q ++ s)) = true
      intro h
      rw [Bool.and_eq_true] at h
      exact hc (beq_iff_eq.mp h.1).symm
    rw [List.cons_append, charsReplace_cons_neg _ _ _ _ _ hpre, ih hq]
    rfl

theorem nil_isPrefixOf (l : List Char) :
    ([] : List Char).isPrefixOf l = true := by
  cases l <;> rfl

/-- With brace-free keys, the closing brace delimits: the pattern
`k` + closing brace is a prefix of `k'` + closing brace + anything exactly
when the keys agree. -/
theorem isPrefixOf_key_aux :
    ∀ (k : List Char), '}' ∉ k → ∀ (k' t : List Char), '}' ∉ k' →
      ((k ++ ['}']).isPrefixOf (k' ++ '}' :: t) = true ↔ k = k') := by
  intro k
  induction k with
  | nil =>
    intro _ k' t hk'
    cases k' with
    | nil =>
      show (('}' == '}') && ([] : List Char).isPrefixOf t) = true ↔ _
      simp [nil_isPrefixOf]
    | cons b k2' =>
      have hb : b ≠ '}' := fun h => hk' (by rw [h]; exact List.mem_cons_self _ _)
      show (('}' == b) && _) = true ↔ _
      constructor
      · intro h
        rw [Bool.and_eq_true] at h
        exact absurd (beq_iff_eq.mp h.1).symm hb
      · intro h
        cases h
  | cons a k2 ih =>
    intro hk k' t hk'
    have ha : a ≠ '}' := fun h => hk (by rw [h]; exact List.mem_cons_self _ _)
    have hk2 : '}' ∉ k2 := fun h => hk (List.mem_cons_of_mem _ h)
    cases k' with
    | nil =>
      show ((a == '}') && _) = true ↔ _
      constructor
      · intro h
        rw [Bool.and_eq_true] at h
        exact absurd (beq_iff_eq.mp h.1) ha
      · intro h
        cases h
    | cons b k2' =>
      have hb2 : '}' ∉ k2' := fun h => hk' (List.mem_cons_of_mem _ h)
      show ((a == b) && (k2 ++ ['}']).isPrefixOf (k2' ++ '}' :: t)) = true ↔ _
      rw [Bool.and_eq_true, beq_iff_eq, ih hk2 k2' t hb2, List.cons.injEq]

theorem drop_key_token (k t : List Char) :
    (k ++ '}' :: t).drop (k ++ ['}']).length = t := by
  rw [show k ++ '}' :: t = (k ++ ['}']) ++ t by simp]
  exact List.drop_left _ _

theorem segOk_iff (s : List Char) : segOk s = true ↔ '{' ∉ s := by
  simp [segOk]

theorem keyOk_iff (k : List Char) :
    keyOk k = true ↔ '{' ∉ k ∧ '}' ∉ k := by
  simp [keyOk]

theorem wfForm_cons_seg (s : List Char) (f : List Piece) :
    wfForm (.seg s :: f) = true ↔ segOk s = true ∧ wfForm f = true := by
  simp [wfForm]

theorem wfForm_cons_tok (k : List Char) (f : List Piece) :
    wfForm (.tok k :: f) = true ↔ keyOk k = true ∧ wfForm f = true := by
  simp [wfForm]

/-- On a well-formed template, one `str.replace` of the token of `k` by a
brace-free value is exactly `substTok`: every token with key `k` becomes
the value, everything else is untouched. -/
theorem charsReplace_render (k v : List Char) (hk : keyOk k = true) :
    ∀ f : List Piece, wfForm f = true →
      charsReplace (render f) '{' (k ++ ['}']) v = render (substTok f k v) := by
  intro f
  induction f with
  | nil => intro _; rfl
  | cons p f ih =>
    intro hf
    cases p with
    | seg s =>
      obtain ⟨hs, hf'⟩ := (wfForm_cons_seg s f).mp hf
      have hs' : '{' ∉ s := (segOk_iff s).mp hs
      show charsReplace (s ++ render f) '{' (k ++ ['}']) v = _
      rw [charsReplace_append_no_open s _ _ _ hs', ih hf']
      rfl
    | tok k' =>
      obtain ⟨hk', hf'⟩ := (wfForm_cons_tok k' f).mp hf
      obtain ⟨hk'o, hk'c⟩ := (keyOk_iff k').mp hk'
      have hkc : '}' ∉ k := ((keyOk_iff k).mp hk).2
      by_cases he : k' = k
      · subst he
        have hpre : ('{' :: (k' ++ ['}'])).isPrefixOf
            ('{' :: (k' ++ '}' :: render f)) = true := by
          show (('{' == '{') &&
            (k' ++ ['}']).isPrefixOf (k' ++ '}' :: render f)) = true
          rw [Bool.and_eq_true]
          exact ⟨rfl, (isPrefixOf_key_aux k' hkc k' (render f) hkc).mpr rfl⟩
        show charsReplace ('{' :: (k' ++ '}' :: render f)) '{'
            (k' ++ ['}']) v = _
        rw [charsReplace_cons_pos _ _ _ _ _ hpre, drop_key_token, ih hf']
        simp [substTok, render]
      · have hpre : ¬ ('{' :: (k ++ ['}'])).isPrefixOf
            ('{' :: (k' ++ '}' :: render f)) = true := by
          show ¬ (('{' == '{') &&
            (k ++ ['}']).isPrefixOf (k' ++ '}' :: render f)) = true
          intro h
          rw [Bool.and_eq_true] at h
          exact he ((isPrefixOf_key_aux k hkc k' (render f) hk'c).mp
            h.2).symm
        show charsReplace ('{' :: (k' ++ '}' :: render f)) '{'
            (k ++ ['}']) v = _
        rw [charsReplace_cons_neg _ _ _ _ _ hpre]
        have hno : '{' ∉ k' ++ ['}'] := by
          intro h
          rcases List.mem_append.mp h with h1 | h1
          · exact hk'o h1
          · rcases List.mem_singleton.mp h1 with h2
            cases h2
        rw [show k' ++ '}' :: render f = (k' ++ ['}']) ++ render f by simp]
        rw [charsReplace_append_no_open _ _ _ _ hno, ih hf']
        simp [substTok, render, he]

theorem wfForm_substTok (k v : List Char) (hv : segOk v = true) :
    ∀ f : List Piece, wfForm f = true → wfForm (substTok f k v) = true := by
  intro f
  induction f with
  | nil => intro _; rfl
  | cons p f ih =>
    intro hf
    cases p with
    | seg s =>
      obtain ⟨hs, hf'⟩ := (wfForm_cons_seg s f).mp hf
      exact (wfForm_cons_seg s (substTok f k v)).mpr ⟨hs, ih hf'⟩
    | tok k' =>
      obtain ⟨hk', hf'⟩ := (wfForm_cons_tok k' f).mp hf
      by_cases he : k' = k
      · subst he
        rw [show substTok (Piece.tok k' :: f) k' v =
            Piece.seg v :: substTok f k' v by simp [substTok]]
        exact (wfForm_cons_seg v (substTok f k' v)).mpr ⟨hv, ih hf'⟩
      · rw [show substTok (Piece.tok k' :: f) k v =
            Piece.tok k' :: substTok f k v by simp [substTok, he]]
        exact (wfForm_cons_tok k' (substTok f k v)).mpr ⟨hk', ih hf'⟩

/-- The sequential per-key replacement loop, run on a well-formed template
with brace-free keys and open-brace-free values, is the corresponding
sequence of token substitutions on the parsed template. -/
theorem substFoldChars_render :
    ∀ (ps : List (List Char × List Char)) (f : List Piece),
      wfForm f = true →
      (∀ kv ∈ ps, keyOk kv.1 = true ∧ segOk kv.2 = true) →
      substFoldChars (render f) ps = render (substAllTok f ps) := by
  intro ps
  induction ps with
  | nil => intro f _ _; rfl
  | cons kv t ih =>
    intro f hf hps
    obtain ⟨hkv, hps'⟩ := List.forall_mem_cons.mp hps
    show substFoldChars (charsReplace (render f) '{' (kv.1 ++ ['}']) kv.2) t =
      render (substAllTok (substTok f kv.1 kv.2) t)
    rw [charsReplace_render kv.1 kv.2 hkv.1 f hf]
    exact ih (substTok f kv.1 kv.2)
      (wfForm_substTok kv.1 kv.2 hkv.2 f hf) hps'

theorem simulSubst_nil (f : List Piece) : simulSubst f [] = f := by
  induction f with
  | nil => rfl
  | cons p f ih =>
    cases p with
    | seg s =>
      show Piece.seg s :: simulSubst f [] = _
      rw [ih]
    | tok k =>
      show Piece.tok k :: simulSubst f [] = _
      rw [ih]

theorem simulSubst_substTok (k v : List Char)
    (t : List (List Char × List Char)) :
    ∀ f : List Piece,
      simulSubst (substTok f k v) t = simulSubst f ((k, v) :: t) := by
  intro f
  induction f with
  | nil => rfl
  | cons p f ih =>
    cases p with
    | seg s =>
      show Piece.seg s :: simulSubst (substTok f k v) t =
        Piece.seg s :: simulSubst f ((k, v) :: t)
      rw [ih]
    | tok k' =>
      by_cases he : k' = k
      · subst he
        rw [show substTok (Piece.tok k' :: f) k' v =
            Piece.seg v :: substTok f k' v by simp [substTok]]
        show Piece.seg v :: simulSubst (substTok f k' v) t =
          (match lookupVal ((k', v) :: t) k' with
            | some w => Piece.seg w
            | Option.none => Piece.tok k') :: simulSubst f ((k', v) :: t)
        rw [ih]
        simp [lookupVal]
      · rw [show substTok (Piece.tok k' :: f) k v =
            Piece.tok k' :: substTok f k v by
          simp [substTok, he]]
        show (match lookupVal t k' with
            | some w => Piece.seg w
            | Option.none => Piece.tok k') ::
            simulSubst (substTok f k v) t =
          (match lookupVal ((k, v) :: t) k' with
            | some w => Piece.seg w
            | Option.none => Piece.tok k') :: simulSubst f ((k, v) :: t)
        rw [ih]
        have hne : ¬ k = k' := fun h => he h.symm
        simp [lookupVal, hne]

theorem substAllTok_eq_simulSubst :
    ∀ (ps : List (List Char × List Char)) (f : List Piece),
      substAllTok f ps = simulSubst f ps := by
  intro ps
  induction ps with
  | nil =>
    intro f
    rw [simulSubst_nil]
    rfl
  | cons kv t ih =>
    intro f
    show substAllTok (substTok f kv.1 kv.2) t = _
    rw [ih, simulSubst_substTok]

/-- On a string command, the substitution loop of lines 40-41 is the
character-level fold of `str.replace` over the mapping. -/
theorem substPy_str (s : String) (ps : List (String × String)) :
    substPy (.str s) (ps.map fun kv => (kv.1, PyValue.str kv.2)) =
      .ok (.str (String.mk (substFoldChars s.data
        (ps.map fun kv => (kv.1.data, kv.2.data))))) := by
  induction ps generalizing s with
  | nil =>
    cases s
    rfl
  | cons kv t ih =>
    show substPy (.str (replaceTok s kv.1 (pyStr (.str kv.2))))
        (t.map fun kv => (kv.1, PyValue.str kv.2)) = _
    rw [ih]
    rfl

/-- C3 counterexample: with template `a{y}b` and mapping
`y -> {x}, x -> c` (in that order), the token of key `x` does not occur in
the template, yet adding the entry for `x` changes the result: the
sequential loop rewrites the `{x}` that the value of `y` introduced,
yielding `acb` instead of `a{x}b`.  This refutes both "keys whose token
does not occur in the template change nothing" and "every occurrence of
`{key}` is replaced by that key's value, others left untouched" as stated
universally. -/
theorem subst_order_counterexample :
    occursTok "x" "a{y}b" = false ∧
    substPy (.str "a{y}b") [("y", .str "{x}"), ("x", .str "c")] =
      .ok (.str "acb") ∧
    substPy (.str "a{y}b") [("y", .str "{x}")] = .ok (.str "a{x}b") ∧
    PyValue.str "acb" ≠ PyValue.str "a{x}b" :=
  ⟨rfl, rfl, rfl, by decide⟩

/-- C3 (amended): substitution applies `str.replace` per key sequentially
in mapping order, so later keys also rewrite tokens introduced by earlier
values; restricted to inputs where that cannot happen - a template whose
braces all delimit tokens, brace-free keys, and values free of opening
braces - it coincides with the simultaneous one-pass reading of the spec:
every token whose key is in the mapping is replaced by that key's value
(first binding), unmatched tokens are left untouched, keys without a
matching token change nothing, and the result is a function of template
and mapping. -/
theorem substitution_amended (f : List Piece) (ps : List (String × String))
    (hf : wfForm f = true)
    (hps : ∀ kv ∈ ps, keyOk kv.1.data = true ∧ segOk kv.2.data = true) :
    substPy (.str (String.mk (render f)))
        (ps.map fun kv => (kv.1, PyValue.str kv.2)) =
      .ok (.str (String.mk (render (simulSubst f
        (ps.map fun kv => (kv.1.data, kv.2.data)))))) := by
  rw [substPy_str]
  have hps' : ∀ kv ∈ ps.map (fun kv => (kv.1.data, kv.2.data)),
      keyOk kv.1 = true ∧ segOk kv.2 = true := by
    intro kv hkv
    obtain ⟨kv0, hkv0, rfl⟩ := List.mem_map.mp hkv
    exact hps kv0 hkv0
  rw [show (String.mk (render f)).data = render f from rfl]
  rw [substFoldChars_render _ f hf hps', substAllTok_eq_simulSubst]

theorem substitution_amended_witness :
    String.mk (render formDemo) = "echo {greeting}, {name}!" ∧
    substPy (.str (String.mk (render formDemo)))
        ([("greeting", "hi"), ("name", "world")].map
          fun kv => (kv.1, PyValue.str kv.2)) =
      .ok (.str (String.mk (render (simulSubst formDemo
        ([("greeting", "hi"), ("name", "world")].map
          fun kv => (kv.1.data, kv.2.data)))))) ∧
    String.mk (render (simulSubst formDemo
        ([("greeting", "hi"), ("name", "world")].map
          fun kv => (kv.1.data, kv.2.data)))) = "echo hi, world!" :=
  ⟨rfl,
   substitution_amended formDemo [("greeting", "hi"), ("name", "world")]
     (by decide) (by decide),
   rfl⟩
